import Mathlib

/-!
Verification of the katana runtime substrate against its specification.

Shallow embedding of:
- `src/libtsuba/include/tsuba/PropertyCache.h` (PropertyCacheKey),
- `src/src/mm/NumaMem.cpp` (largeAlloc / largeInterleavedAlloc),
- `src/libgalois/include/katana/ParallelSTL.h` (count_if, find_if,
  dual_partition, partition_helper, partition, partial sums),
- the reduction framework (`Reducible`, `PerThreadStorage`, `do_all`
  dispatch), whose implementation is not part of the sources given here and
  is therefore modelled from the spec where indicated.

Machine integers are modelled as `Nat`/`Int`; pointers as `Nat` indices;
`std::optional` as `Option`; an allocation routine either returns a pointer
value (possibly null, modelled `Option Nat`) or aborts the process.
-/

namespace Katana

/-! ### PropertyCacheKey (PropertyCache.h lines 10-50) -/

/-- `enum class NodeEdge { kNode = 10, kEdge, kNeitherNodeNorEdge };` -/
inductive NodeEdge where
  | kNode
  | kEdge
  | kNeitherNodeNorEdge
deriving DecidableEq

/-- The three fields of `PropertyCacheKey` (PropertyCache.h lines 42-49). -/
structure PropertyCacheKey where
  node_edge : NodeEdge
  rdg_dir : String
  prop_name : String

/-- `operator==` (PropertyCache.h lines 18-21): conjunction of the three
field comparisons. -/
def PropertyCacheKey.eq (a b : PropertyCacheKey) : Bool :=
  a.node_edge == b.node_edge && a.rdg_dir == b.rdg_dir &&
    a.prop_name == b.prop_name

/-- The hash primitives used by `PropertyCacheKey::Hash`
(`boost::hash_value` on the enum and on the two strings, and
`boost::hash_combine`), left abstract: the theorem holds for every choice. -/
structure HashFns where
  hashEnum : NodeEdge → Nat
  hashString : String → Nat
  combine : Nat → Nat → Nat

/-- `PropertyCacheKey::Hash::operator()` (PropertyCache.h lines 28-39):
seed starts at 0 and is combined with the hash of each field in turn. -/
def PropertyCacheKey.hash (H : HashFns) (k : PropertyCacheKey) : Nat :=
  let seed := 0
  let seed := H.combine seed (H.hashEnum k.node_edge)
  let seed := H.combine seed (H.hashString k.rdg_dir)
  let seed := H.combine seed (H.hashString k.prop_name)
  seed

/-! ### NUMA allocator (NumaMem.cpp) -/

/-- Result of an allocation routine as observed by its caller: either the
function returns a pointer value (possibly the null pointer, `none`), or the
process aborts before returning. -/
inductive AllocOutcome where
  | returns (p : Option Nat)
  | aborted
deriving DecidableEq

/-- `largeAlloc` (NumaMem.cpp lines 31-33): `return malloc(len);` with no
null check — the caller receives exactly what `malloc` produced. -/
def largeAlloc (malloc : Nat → Option Nat) (len : Nat) : AllocOutcome :=
  AllocOutcome.returns (malloc len)

/-- The three compile-time configurations of NumaMem.cpp lines 41-56. -/
inductive NumaCfg where
  | numaOld
  | numa
  | noNuma

/-- The nodemask loop (NumaMem.cpp lines 44-45 and 50-51): start from the
empty mask and, for `y` in `[0, num)`, set bit `y / 4`. -/
def nodemask (num : Nat) : Nat → Bool :=
  (List.range num).foldl (fun nm y => fun b => nm b || b == y / 4)
    (fun _ => false)

/-- `largeInterleavedAlloc` (NumaMem.cpp lines 39-60).  Under either NUMA
configuration the request is passed to `numa_alloc_interleaved_subset`
together with the nodemask built from the active thread count; otherwise it
falls back to `malloc`.  In all configurations `if (!data) abort();`. -/
def largeInterleavedAlloc (cfg : NumaCfg)
    (numaAllocInterleavedSubset : Nat → (Nat → Bool) → Option Nat)
    (malloc : Nat → Option Nat) (activeThreads : Nat) (len : Nat) :
    AllocOutcome :=
  let data : Option Nat :=
    match cfg with
    | NumaCfg.numaOld => numaAllocInterleavedSubset len (nodemask activeThreads)
    | NumaCfg.numa => numaAllocInterleavedSubset len (nodemask activeThreads)
    | NumaCfg.noNuma => malloc len
  match data with
  | none => AllocOutcome.aborted
  | some p => AllocOutcome.returns (some p)

/-! ### Do-all block decomposition (ParallelSTL.h lines 336-360)

`partial_sum` splits `[0, N)` into `numBlocks = getActiveThreads()` blocks:
`blockSize = (N + T - 1) / T`, `blockStart = min(b * blockSize, N)`,
`blockEnd = min((b+1) * blockSize, N)`. -/

/-- `blockSize = (sizeOfVector + numBlocks - 1) / numBlocks` (line 338). -/
def blockSize (N T : Nat) : Nat := (N + T - 1) / T

/-- `blockStart = std::min(block * blockSize, sizeOfVector)` (line 347). -/
def blockStart (N T b : Nat) : Nat := min (b * blockSize N T) N

/-- `blockEnd = std::min((block + 1) * blockSize, sizeOfVector)` (line 348). -/
def blockEnd (N T b : Nat) : Nat := min ((b + 1) * blockSize N T) N

/-! ### Reduction framework

`Reducible`/`PerThreadStorage` (katana/Reduction.h) are not among the given
sources — only their callers and the test are — so they are modelled from
the spec here. -/

/-- Modelled from the spec: `update(v)` merges `v` into the calling thread's
local slot via `Merge`; the slot is lazily initialized via `Identity()` on
first local access (modelled by pre-initializing every slot with the
identity, which the first merge then consumes). `w` is the WorkerId of the
calling thread. -/
def applyUpdate {T : Type} (merge : T → T → T) (identity : T)
    (slots : List T) (w : Nat) (v : T) : List T :=
  slots.set w (merge (slots.getD w identity) v)

/-- Modelled from the spec: the per-thread slots of a `Reducible` after a
stream of `update` events `(WorkerId, value)` has been applied, in arrival
order, starting from `ActiveThreads() = n` identity-initialized slots.
Each event touches only the issuing worker's slot. -/
def runUpdates {T : Type} (merge : T → T → T) (identity : T) (n : Nat)
    (events : List (Nat × T)) : List T :=
  events.foldl (fun s e => applyUpdate merge identity s e.1 e.2)
    (List.replicate n identity)

/-- Modelled from the spec: `reduce()` folds left-to-right over the worker
slots in WorkerId order, starting from the identity. -/
def reduceSlots {T : Type} (merge : T → T → T) (identity : T)
    (slots : List T) : T :=
  slots.foldl merge identity

/-- The subsequence of values contributed by worker `w`, in the order that
worker issued them. -/
def workerValues {T : Type} (events : List (Nat × T)) (w : Nat) : List T :=
  (events.filter (fun e => e.1 == w)).map Prod.snd

/-- `count_if` (ParallelSTL.h lines 40-52): a `do_all` over the range whose
body is `if (pred(v)) count += 1;` on a `GAccumulator<size_t>` (merge `+`,
identity `0`), followed by `count.reduce()`.  The `do_all` dispatch is
modelled from the spec: the range is split into per-worker blocks, each
worker folds its own block into its own slot. -/
def count_if {α : Type} (pred : α → Bool) (blocks : List (List α)) : Nat :=
  reduceSlots Nat.add 0
    (blocks.map (fun bl => bl.foldl (fun c v => if pred v then c + 1 else c) 0))

/-! ### find_if (ParallelSTL.h lines 54-88) -/

/-- The result scan of `find_if` (lines 83-87): return the recorded element
of the first (lowest-WorkerId) non-empty per-thread slot, or `last` if all
slots are empty. -/
def find_if_scan {α : Type} (slots : List (Option α)) (last : α) : α :=
  match slots with
  | [] => last
  | some v :: _ => v
  | none :: rest => find_if_scan rest last

/-- `find_if_helper` (lines 54-68) as run by one worker under
`parallel_break`: for each popped item, if the predicate holds the worker
records it in its per-thread slot and calls `ctx.breakLoop()`, so its slot
holds the first satisfying item of the items it processed (`none` if it
processed all of them without a hit). -/
def find_if_worker {α : Type} (pred : α → Bool) (items : List α) :
    Option α :=
  items.find? pred

/-- `find_if` (lines 70-88), with the `for_each` dispatch modelled from the
spec: the range is distributed into per-worker item lists; each worker runs
`find_if_helper` over its list; afterwards the caller scans all per-thread
slots in WorkerId order.  `blocks` is the distribution in the run where no
early break cut other workers short (the exhaustion run). -/
def find_if {α : Type} (pred : α → Bool) (blocks : List (List α))
    (last : α) : α :=
  find_if_scan (blocks.map (find_if_worker pred)) last

/-! ### partition_helper shared state (ParallelSTL.h lines 165-208)

The random-access iterators are modelled as `Nat` offsets into the original
range.  Each of `takeLow`, `takeHigh`, `update` performs all of its reads
and writes of the shared fields inside `Lock.lock()`/`Lock.unlock()`
(`SimpleLock`, mutual exclusion), so in the embedding each is a single
atomic transition on the shared state; an execution is an arbitrary
interleaving, i.e. an arbitrary sequence of these transitions. -/

/-- `partition_helper_state` fields (lines 168-169): `first, last` bound the
work not yet handed out; `rfirst, rlast` bound the recorded leftovers. -/
structure PHState where
  first : Nat
  last : Nat
  rfirst : Nat
  rlast : Nat
deriving DecidableEq

/-- `BlockSize()` (lines 172-175). -/
def PHBlockSize : Nat := 1024

/-- `takeLow` (lines 188-195): under the lock,
`BS = min(BlockSize(), distance(first, last)); rv = first; first += BS;`
returning the block `(rv, rv + BS)`. -/
def takeLow (s : PHState) : PHState × (Nat × Nat) :=
  let BS := min PHBlockSize (s.last - s.first)
  (PHState.mk (s.first + BS) s.last s.rfirst s.rlast,
    (s.first, s.first + BS))

/-- `takeHigh` (lines 180-187): under the lock,
`BS = min(BlockSize(), distance(first, last)); last -= BS; rv = last;`
returning the block `(rv, rv + BS)`. -/
def takeHigh (s : PHState) : PHState × (Nat × Nat) :=
  let BS := min PHBlockSize (s.last - s.first)
  (PHState.mk s.first (s.last - BS) s.rfirst s.rlast,
    (s.last - BS, (s.last - BS) + BS))

/-- `update` (lines 196-207): under the lock, extend `[rfirst, rlast)` by
each of the two leftover blocks that is non-empty. -/
def updateBounds (s : PHState) (low high : Nat × Nat) : PHState :=
  let s1 := if low.1 ≠ low.2 then
      PHState.mk s.first s.last (min s.rfirst low.1) (max s.rlast low.2)
    else s
  if high.1 ≠ high.2 then
    PHState.mk s1.first s1.last (min s1.rfirst high.1) (max s1.rlast high.2)
  else s1

/-- One lock-guarded operation on the shared state, as issued by some
worker. -/
inductive POp where
  | takeLowOp
  | takeHighOp
  | updateOp (low high : Nat × Nat)
deriving DecidableEq

/-- Apply one atomic operation; `takeLow`/`takeHigh` also emit the block
handed to the calling worker. -/
def stepOp (acc : PHState × List (Nat × Nat)) (op : POp) :
    PHState × List (Nat × Nat) :=
  match op with
  | POp.takeLowOp => ((takeLow acc.1).1, acc.2 ++ [(takeLow acc.1).2])
  | POp.takeHighOp => ((takeHigh acc.1).1, acc.2 ++ [(takeHigh acc.1).2])
  | POp.updateOp low high => (updateBounds acc.1 low high, acc.2)

/-- Run an arbitrary interleaving of lock-guarded operations from the
initial state of the constructor (lines 177-179: `first = f, last = l,
rfirst = l, rlast = f`), collecting every handed-out block. -/
def runOps (f0 l0 : Nat) (ops : List POp) : PHState × List (Nat × Nat) :=
  ops.foldl stepOp (PHState.mk f0 l0 l0 f0, [])

/-- Two half-open blocks `[b1.1, b1.2)`, `[b2.1, b2.2)` are disjoint. -/
def PDisj (b1 b2 : Nat × Nat) : Prop := b1.2 ≤ b2.1 ∨ b2.2 ≤ b1.1

/-! ### partition (ParallelSTL.h lines 143-162, 214-244)

Concrete evaluation model with one active thread: the element type is
`Bool` and the predicate is the element itself; the array is a function
from index to value, mutated by swaps; iterators are `Nat` offsets.
`on_each(P(&s))` with one active thread runs
`partition_helper::operator()` once, sequentially, so the execution is
deterministic. -/

/-- `std::swap(*i, *j)`. -/
def swapIdx (arr : Nat → Bool) (i j : Nat) : Nat → Bool :=
  fun k => if k = i then arr j else if k = j then arr i else arr k

/-- `while (first1 != last1 && pred(*first1)) ++first1;` (line 151), with
fuel `l1 - f1` so the fuel running out is exactly the `first1 != last1`
guard failing. -/
def whileTrue (arr : Nat → Bool) : Nat → Nat → Nat
  | 0, f1 => f1
  | fuel + 1, f1 => if arr f1 then whileTrue arr fuel (f1 + 1) else f1

/-- `while (first3 != last3 && !pred(*first3)) ++first3;` (line 155).
`first3` is the reverse iterator `RI(last2)` represented by its base `b3`
(it dereferences to element `b3 - 1`, advancing decrements the base, and
`last3 = RI(first2)` has base `f2`).  Fuel is `b3 - f2`. -/
def whileFalseRev (arr : Nat → Bool) : Nat → Nat → Nat
  | 0, b3 => b3
  | fuel + 1, b3 => if arr (b3 - 1) then b3 else whileFalseRev arr fuel (b3 - 1)

/-- `dual_partition` (lines 143-162): scan the low range forward past
`pred`-true elements, scan the high range backward past `pred`-false
elements, swap the two misplaced elements found, repeat; on a scan
exhausting, return `(first1, first3.base())`.  One fuel unit per swap
iteration. -/
def dualPart : Nat → (Nat → Bool) → Nat → Nat → Nat → Nat →
    ((Nat → Bool) × Nat × Nat)
  | 0, arr, f1, _l1, _f2, b3 => (arr, f1, b3)
  | fuel + 1, arr, f1, l1, f2, b3 =>
    let f1' := whileTrue arr (l1 - f1) f1
    if f1' = l1 then (arr, f1', b3)
    else
      let b3' := whileFalseRev arr (b3 - f2) b3
      if b3' = f2 then (arr, f1', b3')
      else dualPart fuel (swapIdx arr f1' (b3' - 1)) (f1' + 1) l1 f2 (b3' - 1)

/-- `partition_helper::operator()` (lines 214-227) run by the single
worker: `low`/`high` start as empty default ranges; repeatedly
`dual_partition` the current blocks, refill an emptied block via
`takeLow`/`takeHigh`, and when a refill comes back empty record the
leftovers with `update` and stop.  One fuel unit per do-while iteration. -/
def workerLoop : Nat → (Nat → Bool) → PHState → (Nat × Nat) →
    (Nat × Nat) → ((Nat → Bool) × PHState)
  | 0, arr, s, _low, _high => (arr, s)
  | fuel + 1, arr, s, low, high =>
    let r := dualPart (low.2 - low.1 + (high.2 - high.1) + 1)
      arr low.1 low.2 high.1 high.2
    let low1 : Nat × Nat := (r.2.1, low.2)
    let high1 : Nat × Nat := (high.1, r.2.2)
    let sl := if low1.1 = low1.2 then takeLow s else (s, low1)
    let sh := if high1.1 = high1.2 then takeHigh sl.1 else (sl.1, high1)
    if sl.2.1 ≠ sl.2.2 ∧ sh.2.1 ≠ sh.2.2 then
      workerLoop fuel r.1 sh.1 sl.2 sh.2
    else
      (r.1, updateBounds sh.1 sl.2 sh.2)

/-- The index returned by `std::partition(f, f + fuel, pred)` on a valid
(non-reversed) range: `f` plus the number of `pred`-true elements. -/
def countTrue (arr : Nat → Bool) : Nat → Nat → Nat
  | 0, _f => 0
  | fuel + 1, f => (if arr f then 1 else 0) + countTrue arr fuel (f + 1)

/-- `ParallelSTL::partition` (lines 230-244) over `[0, N)` with one active
thread.  The serial path (`distance <= 1024`) and the final cleanup call
`std::partition(s.rfirst, s.rlast, pred)` return the partition-point
index; a cleanup call whose iterator pair is reversed (`rfirst > rlast`)
violates `std::partition`'s precondition (undefined behavior), modelled as
`none`. -/
def katanaPartitionT1 (arr : Nat → Bool) (N : Nat) : Option Nat :=
  if N ≤ 1024 then some (countTrue arr N 0)
  else
    let r := workerLoop (N + 2) arr (PHState.mk 0 N N 0) (0, 0) (0, 0)
    if r.2.rfirst = 0 ∧ r.2.rlast = N then some r.2.first
    else if r.2.rfirst ≤ r.2.rlast then
      some (r.2.rfirst + countTrue r.1 (r.2.rlast - r.2.rfirst) r.2.rfirst)
    else none

/-! ### partial sums (ParallelSTL.h lines 328-394)

`ValueType` is modelled as `Int`. -/

/-- `std::partial_sum` (the serial reference, also called per block on
lines 352-353 and on the small-range path, line 392): `out[0] = in[0]`,
`out[i] = out[i-1] + in[i]`, written with the running accumulator
explicit. -/
def inclusiveScanAux (acc : Int) : List Int → List Int
  | [] => []
  | x :: xs => (acc + x) :: inclusiveScanAux (acc + x) xs

/-- `std::partial_sum` over a whole list (accumulator starts at `0`, the
additive identity, so `out[0] = in[0]`). -/
def inclusiveScan (l : List Int) : List Int := inclusiveScanAux 0 l

/-- The input slice `[blockStart, blockEnd)` handed to block `b`'s
`std::partial_sum` call (lines 347-353). -/
def blockSlice (l : List Int) (T b : Nat) : List Int :=
  (l.drop (blockStart l.length T b)).take
    (blockEnd l.length T b - blockStart l.length T b)

/-- `localSums[block]` (lines 354-359): after phase 1 each block reads
`*(d_first + blockEnd - 1)`, the last value of the output segment ending at
its `blockEnd`.  A non-empty block thereby reads the last element of the
scan it itself just wrote.  An empty block (possible only past the end of
the data, with `blockStart = blockEnd = N` and `blockEnd > 0`) reads a slot
owned by — and in the same `do_all` concurrently written by — another
worker; that racy value is modelled as an arbitrary `g b`, and the theorem
holds for every `g` (the value is never used in the result). -/
def localSums (g : Nat → Int) (l : List Int) (T b : Nat) : Int :=
  if 0 < blockEnd l.length T b then
    (if blockStart l.length T b < blockEnd l.length T b then
      (inclusiveScan (blockSlice l T b)).getLastD 0
    else g b)
  else 0

/-- The running-sum loop (lines 362-372): `bulkOffsets b` is the exclusive
prefix sum of `localSums` below `b` — the amount added to block `b` in
phase 2. -/
def bulkOffsets (g : Nat → Int) (l : List Int) (T : Nat) : Nat → Int
  | 0 => 0
  | b + 1 => bulkOffsets g l T b + localSums g l T b

/-- The output after phase 2 (lines 374-386): block `b`'s segment holds the
scan of its own slice (written in phase 1, lines 344-360) with
`bulkOffsets b` added to every element; the segments are contiguous and
disjoint (`doAll_blocks_cover_exactly_once`), so the memory is their
concatenation in block order. -/
def phase2 (g : Nat → Int) (l : List Int) (T : Nat) : List Int :=
  ((List.range T).map (fun b =>
    (inclusiveScan (blockSlice l T b)).map
      (fun v => v + bulkOffsets g l T b))).flatten

/-- `ParallelSTL::partial_sum` (lines 328-394): the parallel path when
`sizeOfVector >= 1024` (with `T = getActiveThreads()` blocks), the serial
`std::partial_sum` otherwise. -/
def parScan (g : Nat → Int) (T : Nat) (l : List Int) : List Int :=
  if 1024 ≤ l.length then phase2 g l T else inclusiveScan l

/-- Invariant of the shared partition state: the not-yet-handed-out range
`[first, last)` stays inside the original `[f0, l0)` with `first ≤ last`,
and every handed-out block is inside `[f0, l0)`, outside the current
`[first, last)`, and pairwise disjoint from the others. -/
def PHInv (f0 l0 : Nat) (s : PHState) (bs : List (Nat × Nat)) : Prop :=
  f0 ≤ s.first ∧ s.first ≤ s.last ∧ s.last ≤ l0 ∧
  bs.Pairwise PDisj ∧
  ∀ b ∈ bs, f0 ≤ b.1 ∧ b.2 ≤ l0 ∧ (b.2 ≤ s.first ∨ s.last ≤ b.1)

end Katana

namespace Katana

/-! ### Helper lemmas -/

theorem blockSize_pos {N T : Nat} (hT : 0 < T) (hN : 0 < N) :
    0 < blockSize N T := by
  unfold blockSize
  have h : 1 ≤ (N + T - 1) / T := (Nat.le_div_iff_mul_le hT).mpr (by omega)
  omega

theorem mul_blockSize_ge {N T : Nat} (hT : 0 < T) : N ≤ T * blockSize N T := by
  unfold blockSize
  have h := Nat.div_add_mod (N + T - 1) T
  have h2 := Nat.mod_lt (N + T - 1) hT
  generalize hR : (N + T - 1) % T = R at h h2
  generalize hM : T * ((N + T - 1) / T) = M at h ⊢
  omega

theorem foldl_merge_assoc {T : Type} (merge : T → T → T)
    (hassoc : ∀ a b c, merge (merge a b) c = merge a (merge b c)) :
    ∀ (l : List T) (a b : T),
      merge a (l.foldl merge b) = l.foldl merge (merge a b) := by
  intro l
  induction l with
  | nil => intro a b; rfl
  | cons x xs ih =>
    intro a b
    simp only [List.foldl_cons]
    rw [ih, hassoc]

theorem foldl_map_merge {T : Type} (merge : T → T → T) (identity : T)
    (hassoc : ∀ a b c, merge (merge a b) c = merge a (merge b c))
    (hidr : ∀ a, merge a identity = a) :
    ∀ (ls : List (List T)) (acc : T),
      (ls.map (fun l => l.foldl merge identity)).foldl merge acc =
        ls.flatten.foldl merge acc := by
  intro ls
  induction ls with
  | nil => intro acc; rfl
  | cons l ls ih =>
    intro acc
    simp only [List.map_cons, List.foldl_cons, List.flatten_cons,
      List.foldl_append]
    rw [foldl_merge_assoc merge hassoc l acc identity, hidr, ih]

theorem foldl_applyUpdate_length {T : Type} (merge : T → T → T)
    (identity : T) :
    ∀ (events : List (Nat × T)) (slots : List T),
      (events.foldl (fun s e => applyUpdate merge identity s e.1 e.2)
        slots).length = slots.length := by
  intro events
  induction events with
  | nil => intro slots; rfl
  | cons e es ih =>
    intro slots
    simp only [List.foldl_cons]
    rw [ih]
    simp [applyUpdate]

theorem foldl_applyUpdate_getD {T : Type} (merge : T → T → T)
    (identity : T) :
    ∀ (events : List (Nat × T)) (slots : List T) (w : Nat),
      w < slots.length →
      (events.foldl (fun s e => applyUpdate merge identity s e.1 e.2)
          slots).getD w identity =
        (workerValues events w).foldl merge (slots.getD w identity) := by
  intro events
  induction events with
  | nil =>
    intro slots w _
    simp [workerValues]
  | cons e es ih =>
    intro slots w hw
    simp only [List.foldl_cons]
    have hlen : w < (applyUpdate merge identity slots e.1 e.2).length := by
      simpa [applyUpdate] using hw
    rw [ih _ w hlen]
    by_cases he : e.1 = w
    · subst he
      have h1 : (applyUpdate merge identity slots e.1 e.2).getD e.1 identity =
          merge (slots.getD e.1 identity) e.2 := by
        rw [List.getD_eq_getElem _ _ hlen]
        simp [applyUpdate, List.getElem_set_self]
      rw [h1]
      have h2 : workerValues (e :: es) e.1 = e.2 :: workerValues es e.1 := by
        simp [workerValues, List.filter_cons]
      rw [h2, List.foldl_cons]
    · have h1 : (applyUpdate merge identity slots e.1 e.2).getD w identity =
          slots.getD w identity := by
        rw [List.getD_eq_getElem _ _ hlen, List.getD_eq_getElem _ _ hw]
        simp only [applyUpdate]
        exact List.getElem_set_ne he _
      have h2 : workerValues (e :: es) w = workerValues es w := by
        simp [workerValues, List.filter_cons, he]
      rw [h1, h2]

theorem runUpdates_eq_map {T : Type} (merge : T → T → T) (identity : T)
    (n : Nat) (events : List (Nat × T)) :
    runUpdates merge identity n events =
      (List.range n).map
        (fun w => (workerValues events w).foldl merge identity) := by
  have hlen : (runUpdates merge identity n events).length = n := by
    unfold runUpdates
    rw [foldl_applyUpdate_length]
    simp
  apply List.ext_getElem
  · rw [hlen]; simp
  · intro i h1 h2
    have hi : i < n := by rwa [hlen] at h1
    have hrep : i < (List.replicate n identity).length := by simpa using hi
    have hgetD := foldl_applyUpdate_getD merge identity events
      (List.replicate n identity) i hrep
    have hinit : (List.replicate n identity).getD i identity = identity := by
      rw [List.getD_eq_getElem _ _ hrep]
      simp
    rw [hinit] at hgetD
    have hL : (runUpdates merge identity n events)[i] =
        (workerValues events i).foldl merge identity := by
      rw [← List.getD_eq_getElem _ identity h1]
      exact hgetD
    rw [hL]
    simp

theorem count_if_foldl {α : Type} (pred : α → Bool) :
    ∀ (bl : List α) (acc : Nat),
      bl.foldl (fun c v => if pred v then c + 1 else c) acc =
        acc + (bl.filter pred).length := by
  intro bl
  induction bl with
  | nil => intro acc; simp
  | cons x xs ih =>
    intro acc
    simp only [List.foldl_cons, List.filter_cons]
    by_cases h : pred x
    · rw [if_pos h, ih, if_pos h]
      simp [Nat.add_comm, Nat.add_assoc, Nat.add_left_comm]
    · rw [if_neg h, ih, if_neg h]

theorem count_if_flatten {α : Type} (pred : α → Bool)
    (blocks : List (List α)) :
    count_if pred blocks = (blocks.flatten.filter pred).length := by
  unfold count_if reduceSlots
  rw [List.foldl_map]
  have key : ∀ (bs : List (List α)) (acc : Nat),
      bs.foldl (fun a bl => Nat.add a
        (bl.foldl (fun c v => if pred v then c + 1 else c) 0)) acc =
        acc + (bs.flatten.filter pred).length := by
    intro bs
    induction bs with
    | nil => intro acc; simp
    | cons bl bs ih =>
      intro acc
      simp only [List.foldl_cons, List.flatten_cons, List.filter_append,
        List.length_append]
      rw [ih, count_if_foldl]
      simp [Nat.add_assoc]
  rw [key]
  simp

theorem find_if_scan_all_none {α : Type} (last : α) :
    ∀ (slots : List (Option α)), (∀ s ∈ slots, s = none) →
      find_if_scan slots last = last := by
  intro slots
  induction slots with
  | nil => intro _; rfl
  | cons s rest ih =>
    intro h
    have hs : s = none := h s (List.mem_cons_self s rest)
    subst hs
    simp only [find_if_scan]
    exact ih (fun x hx => h x (List.mem_cons_of_mem _ hx))

theorem find_if_scan_lowest {α : Type} (last : α) (v : α) :
    ∀ (slots : List (Option α)) (i : Nat), i < slots.length →
      slots.getD i none = some v → (∀ j, j < i → slots.getD j none = none) →
      find_if_scan slots last = v := by
  intro slots
  induction slots with
  | nil => intro i hi _ _; simp at hi
  | cons s rest ih =>
    intro i hi hv hnone
    cases i with
    | zero =>
      simp only [List.getD_cons_zero] at hv
      subst hv
      rfl
    | succ i' =>
      have hs : s = none := by
        have := hnone 0 (Nat.zero_lt_succ i')
        simpa using this
      subst hs
      simp only [find_if_scan]
      apply ih i' (by simpa using hi) (by simpa using hv)
      intro j hj
      have := hnone (j + 1) (by omega)
      simpa using this

theorem find_if_scan_sat {α : Type} (p : α → Bool) (last : α) :
    ∀ (slots : List (Option α)),
      (∀ s ∈ slots, ∀ x, s = some x → p x = true) →
      (∃ s ∈ slots, s ≠ none) →
      p (find_if_scan slots last) = true := by
  intro slots
  induction slots with
  | nil => rintro _ ⟨s, hs, _⟩; simp at hs
  | cons s rest ih =>
    rintro hall ⟨t, ht, htne⟩
    cases s with
    | some v =>
      exact hall (some v) (List.mem_cons_self _ _) v rfl
    | none =>
      simp only [find_if_scan]
      apply ih (fun x hx => hall x (List.mem_cons_of_mem _ hx))
      rcases List.mem_cons.mp ht with rfl | hmem
      · exact absurd rfl htne
      · exact ⟨t, hmem, htne⟩

theorem updateBounds_first (s : PHState) (low high : Nat × Nat) :
    (updateBounds s low high).first = s.first := by
  unfold updateBounds
  dsimp only
  split <;> split <;> rfl

theorem updateBounds_last (s : PHState) (low high : Nat × Nat) :
    (updateBounds s low high).last = s.last := by
  unfold updateBounds
  dsimp only
  split <;> split <;> rfl

theorem PHInv_step (f0 l0 : Nat) (s : PHState) (bs : List (Nat × Nat))
    (op : POp) (h : PHInv f0 l0 s bs) :
    PHInv f0 l0 (stepOp (s, bs) op).1 (stepOp (s, bs) op).2 := by
  obtain ⟨h1, h2, h3, h4, h5⟩ := h
  cases op with
  | takeLowOp =>
    simp only [stepOp, takeLow]
    have hBS : min PHBlockSize (s.last - s.first) ≤ s.last - s.first :=
      Nat.min_le_right _ _
    refine ⟨by simp; omega, by simp; omega, by simpa using h3, ?_, ?_⟩
    · rw [List.pairwise_append]
      refine ⟨h4, List.pairwise_singleton _ _, ?_⟩
      intro a ha b hb
      rcases List.mem_singleton.mp hb with rfl
      rcases (h5 a ha).2.2 with hc | hc
      · exact Or.inl hc
      · exact Or.inr (by simp; omega)
    · intro b hb
      rcases List.mem_append.mp hb with hb | hb
      · obtain ⟨g1, g2, g3⟩ := h5 b hb
        refine ⟨g1, g2, ?_⟩
        rcases g3 with hc | hc
        · exact Or.inl (by simp; omega)
        · exact Or.inr (by simpa using hc)
      · rcases List.mem_singleton.mp hb with rfl
        refine ⟨by simpa using h1, by simp; omega, Or.inl (by simp)⟩
  | takeHighOp =>
    simp only [stepOp, takeHigh]
    have hBS : min PHBlockSize (s.last - s.first) ≤ s.last - s.first :=
      Nat.min_le_right _ _
    refine ⟨by simp; omega, by simp; omega, by simp; omega, ?_, ?_⟩
    · rw [List.pairwise_append]
      refine ⟨h4, List.pairwise_singleton _ _, ?_⟩
      intro a ha b hb
      rcases List.mem_singleton.mp hb with rfl
      rcases (h5 a ha).2.2 with hc | hc
      · exact Or.inl (by simp; omega)
      · exact Or.inr (by simp; omega)
    · intro b hb
      rcases List.mem_append.mp hb with hb | hb
      · obtain ⟨g1, g2, g3⟩ := h5 b hb
        refine ⟨g1, g2, ?_⟩
        rcases g3 with hc | hc
        · exact Or.inl (by simpa using hc)
        · exact Or.inr (by simp; omega)
      · rcases List.mem_singleton.mp hb with rfl
        refine ⟨by simp; omega, by simp; omega, Or.inr (by simp)⟩
  | updateOp low high =>
    simp only [stepOp]
    refine ⟨?_, ?_, ?_, h4, ?_⟩
    · rw [updateBounds_first]; exact h1
    · rw [updateBounds_first, updateBounds_last]; exact h2
    · rw [updateBounds_last]; exact h3
    · intro b hb
      obtain ⟨g1, g2, g3⟩ := h5 b hb
      rw [updateBounds_first, updateBounds_last]
      exact ⟨g1, g2, g3⟩

theorem PHInv_fold (f0 l0 : Nat) :
    ∀ (ops : List POp) (s : PHState) (bs : List (Nat × Nat)),
      PHInv f0 l0 s bs →
      PHInv f0 l0 (ops.foldl stepOp (s, bs)).1 (ops.foldl stepOp (s, bs)).2 := by
  intro ops
  induction ops with
  | nil => intro s bs h; exact h
  | cons op rest ih =>
    intro s bs h
    simp only [List.foldl_cons]
    have hstep := PHInv_step f0 l0 s bs op h
    have heq : stepOp (s, bs) op =
        ((stepOp (s, bs) op).1, (stepOp (s, bs) op).2) := rfl
    rw [heq]
    exact ih _ _ hstep

theorem inclusiveScanAux_length :
    ∀ (l : List Int) (acc : Int), (inclusiveScanAux acc l).length = l.length := by
  intro l
  induction l with
  | nil => intro acc; rfl
  | cons x xs ih =>
    intro acc
    simp only [inclusiveScanAux, List.length_cons, ih]

theorem inclusiveScanAux_add :
    ∀ (l : List Int) (a b : Int),
      inclusiveScanAux (a + b) l = (inclusiveScanAux b l).map (fun v => a + v) := by
  intro l
  induction l with
  | nil => intro a b; rfl
  | cons x xs ih =>
    intro a b
    simp only [inclusiveScanAux, List.map_cons]
    rw [add_assoc, ih]

theorem inclusiveScanAux_append :
    ∀ (l1 l2 : List Int) (acc : Int),
      inclusiveScanAux acc (l1 ++ l2) =
        inclusiveScanAux acc l1 ++ inclusiveScanAux (acc + l1.sum) l2 := by
  intro l1
  induction l1 with
  | nil => intro l2 acc; simp [inclusiveScanAux]
  | cons x xs ih =>
    intro l2 acc
    show (acc + x) :: inclusiveScanAux (acc + x) (xs ++ l2) =
      (acc + x) :: (inclusiveScanAux (acc + x) xs ++
        inclusiveScanAux (acc + (x :: xs).sum) l2)
    rw [ih, List.sum_cons, add_assoc]

theorem inclusiveScanAux_getLastD :
    ∀ (xs : List Int) (acc x d : Int),
      (inclusiveScanAux acc (x :: xs)).getLastD d = acc + (x :: xs).sum := by
  intro xs
  induction xs with
  | nil => intro acc x d; simp [inclusiveScanAux]
  | cons y ys ih =>
    intro acc x d
    have hstep : inclusiveScanAux acc (x :: y :: ys) =
        (acc + x) :: inclusiveScanAux (acc + x) (y :: ys) := rfl
    rw [hstep, List.getLastD_cons, ih]
    simp only [List.sum_cons]
    ring

theorem map_add_inclusiveScan (B : Int) (c : List Int) :
    (inclusiveScan c).map (fun v => v + B) = inclusiveScanAux B c := by
  unfold inclusiveScan
  have h := inclusiveScanAux_add c B 0
  rw [add_zero] at h
  rw [h]
  apply List.map_congr_left
  intro a _
  exact add_comm a B

theorem blockEnd_le (N T b : Nat) : blockEnd N T b ≤ N := Nat.min_le_right _ _

theorem blockStart_le_blockEnd (N T b : Nat) :
    blockStart N T b ≤ blockEnd N T b := by
  unfold blockStart blockEnd
  exact min_le_min (Nat.mul_le_mul_right _ (Nat.le_succ b)) (le_refl N)

theorem blockSlice_length (l : List Int) (T b : Nat) :
    (blockSlice l T b).length =
      blockEnd l.length T b - blockStart l.length T b := by
  unfold blockSlice
  rw [List.length_take, List.length_drop]
  exact Nat.min_eq_left
    (Nat.sub_le_sub_right (blockEnd_le l.length T b) _)

theorem take_blockStart_succ (l : List Int) (T k : Nat) :
    l.take (blockStart l.length T k) ++ blockSlice l T k =
      l.take (blockStart l.length T (k + 1)) := by
  have hle := blockStart_le_blockEnd l.length T k
  unfold blockSlice
  rw [← List.take_add]
  congr 1
  unfold blockStart blockEnd at *
  have h : k * blockSize l.length T ≤ (k + 1) * blockSize l.length T :=
    Nat.mul_le_mul_right _ (Nat.le_succ k)
  generalize k * blockSize l.length T = X at h hle ⊢
  generalize (k + 1) * blockSize l.length T = Y at h hle ⊢
  omega

theorem phase2_upto (g : Nat → Int) (l : List Int) (T : Nat) (hT : 0 < T) :
    ∀ k, k ≤ T →
      ((List.range k).map (fun b =>
        (inclusiveScan (blockSlice l T b)).map
          (fun v => v + bulkOffsets g l T b))).flatten =
        inclusiveScanAux 0 (l.take (blockStart l.length T k)) ∧
      (blockStart l.length T k < l.length →
        bulkOffsets g l T k = (l.take (blockStart l.length T k)).sum) := by
  intro k
  induction k with
  | zero =>
    intro _
    constructor
    · simp [blockStart, inclusiveScanAux]
    · intro _
      simp [bulkOffsets, blockStart]
  | succ k ih =>
    intro hk
    obtain ⟨ih1, ih2⟩ := ih (Nat.le_of_succ_le hk)
    by_cases hA : blockStart l.length T k < l.length
    · -- block k is non-empty
      have hN : 0 < l.length := by omega
      have hbs : 0 < blockSize l.length T := blockSize_pos hT hN
      have hkbs : k * blockSize l.length T ≤ l.length := by
        unfold blockStart at hA
        generalize k * blockSize l.length T = X at hA ⊢
        omega
      have hsm : (k + 1) * blockSize l.length T =
          k * blockSize l.length T + blockSize l.length T :=
        Nat.succ_mul _ _
      have hse : blockStart l.length T k < blockEnd l.length T k := by
        unfold blockStart blockEnd
        rw [hsm]
        unfold blockStart at hA
        generalize k * blockSize l.length T = X at hA ⊢
        omega
      have hslice_pos : 0 < (blockSlice l T k).length := by
        rw [blockSlice_length]
        omega
      have hsum : localSums g l T k = (blockSlice l T k).sum := by
        unfold localSums
        rw [if_pos (by omega), if_pos hse]
        obtain ⟨x, xs, hxs⟩ :=
          List.exists_cons_of_ne_nil (List.ne_nil_of_length_pos hslice_pos)
        rw [hxs]
        unfold inclusiveScan
        rw [inclusiveScanAux_getLastD]
        simp
      have hbulk : bulkOffsets g l T k = (l.take (blockStart l.length T k)).sum :=
        ih2 hA
      constructor
      · rw [List.range_succ, List.map_append, List.flatten_append]
        simp only [List.map_cons, List.map_nil, List.flatten_cons,
          List.flatten_nil, List.append_nil]
        rw [ih1, map_add_inclusiveScan, hbulk]
        rw [← take_blockStart_succ l T k, inclusiveScanAux_append]
        simp
      · intro _
        show bulkOffsets g l T k + localSums g l T k = _
        rw [hbulk, hsum, ← take_blockStart_succ l T k, List.sum_append]
    · -- block k is empty: blockStart k = N and all later blocks are empty
      have hstart_le : blockStart l.length T k ≤ l.length :=
        Nat.min_le_right _ _
      have hstartN : blockStart l.length T k = l.length := by omega
      have hkbs : l.length ≤ k * blockSize l.length T := by
        unfold blockStart at hstartN
        generalize k * blockSize l.length T = X at hstartN ⊢
        omega
      have hsuccN : blockStart l.length T (k + 1) = l.length := by
        unfold blockStart
        have h : l.length ≤ (k + 1) * blockSize l.length T :=
          le_trans hkbs (Nat.mul_le_mul_right _ (Nat.le_succ k))
        exact Nat.min_eq_right h
      have hslice_nil : blockSlice l T k = [] := by
        have hlen : (blockSlice l T k).length = 0 := by
          rw [blockSlice_length]
          have he := blockEnd_le l.length T k
          omega
        exact List.eq_nil_of_length_eq_zero hlen
      constructor
      · rw [List.range_succ, List.map_append, List.flatten_append]
        simp only [List.map_cons, List.map_nil, List.flatten_cons,
          List.flatten_nil, List.append_nil]
        rw [ih1, hslice_nil, hsuccN, hstartN]
        simp [inclusiveScan, inclusiveScanAux]
      · intro hlt
        rw [hsuccN] at hlt
        exact absurd hlt (lt_irrefl _)

/-- An index `i < N` lies in block `b` exactly when `b = i / blockSize`. -/
theorem block_mem_iff {N T : Nat} (hT : 0 < T) {i : Nat} (hi : i < N)
    (b : Nat) :
    (b < T ∧ blockStart N T b ≤ i ∧ i < blockEnd N T b) ↔
      b = i / blockSize N T := by
  have hN : 0 < N := by omega
  have hbs : 0 < blockSize N T := blockSize_pos hT hN
  constructor
  · rintro ⟨_, hlo, hhi⟩
    have h1 : b * blockSize N T ≤ i := by
      rcases Nat.le_total (b * blockSize N T) N with h | h
      · rwa [blockStart, Nat.min_eq_left h] at hlo
      · rw [blockStart, Nat.min_eq_right h] at hlo; omega
    have h2 : i < (b + 1) * blockSize N T :=
      Nat.lt_of_lt_of_le hhi (Nat.min_le_left _ _)
    have h3 : b ≤ i / blockSize N T := (Nat.le_div_iff_mul_le hbs).mpr h1
    have h4 : i / blockSize N T < b + 1 :=
      (Nat.div_lt_iff_lt_mul hbs).mpr h2
    omega
  · rintro rfl
    have h1 : i / blockSize N T * blockSize N T ≤ i := Nat.div_mul_le_self _ _
    have h2 : i < (i / blockSize N T + 1) * blockSize N T := by
      have := (Nat.div_lt_iff_lt_mul hbs).mp
        (Nat.lt_succ_self (i / blockSize N T))
      exact this
    refine ⟨?_, ?_, ?_⟩
    · have hiN : i < T * blockSize N T :=
        Nat.lt_of_lt_of_le hi (mul_blockSize_ge hT)
      exact (Nat.div_lt_iff_lt_mul hbs).mpr hiN
    · exact Nat.le_trans (Nat.min_le_left _ _) h1
    · exact Nat.lt_min.mpr ⟨h2, hi⟩

end Katana

namespace Katana

/-! ### Claim theorems (first group) -/

/-- **C10.** `PropertyCacheKey` equality compares all three fields
(`node_edge`, `rdg_dir`, `prop_name`) and is an equivalence relation
(reflexive, symmetric, transitive), and the hash is consistent with it: for
all keys `a` and `b` and any choice of the underlying boost hash primitives,
`a == b` implies `Hash(a) = Hash(b)`, so equal keys land in the same cache
bucket. -/
theorem propertyCacheKey_eq_equivalence_hash_consistent
    (a b c : PropertyCacheKey) (H : HashFns) :
    (PropertyCacheKey.eq a a = true) ∧
    (PropertyCacheKey.eq a b = PropertyCacheKey.eq b a) ∧
    (PropertyCacheKey.eq a b = true → PropertyCacheKey.eq b c = true →
      PropertyCacheKey.eq a c = true) ∧
    (PropertyCacheKey.eq a b = true ↔
      a.node_edge = b.node_edge ∧ a.rdg_dir = b.rdg_dir ∧
        a.prop_name = b.prop_name) ∧
    (PropertyCacheKey.eq a b = true →
      PropertyCacheKey.hash H a = PropertyCacheKey.hash H b) := by
  have hchar : ∀ x y : PropertyCacheKey,
      PropertyCacheKey.eq x y = true ↔
        x.node_edge = y.node_edge ∧ x.rdg_dir = y.rdg_dir ∧
          x.prop_name = y.prop_name := by
    intro x y
    simp [PropertyCacheKey.eq, Bool.and_eq_true, beq_iff_eq, and_assoc]
  refine ⟨?_, ?_, ?_, hchar a b, ?_⟩
  · simp [hchar]
  · rw [Bool.eq_iff_iff, hchar, hchar]
    constructor
    · rintro ⟨h1, h2, h3⟩; exact ⟨h1.symm, h2.symm, h3.symm⟩
    · rintro ⟨h1, h2, h3⟩; exact ⟨h1.symm, h2.symm, h3.symm⟩
  · intro hab hbc
    have h1 := (hchar a b).mp hab
    have h2 := (hchar b c).mp hbc
    exact (hchar a c).mpr
      ⟨h1.1.trans h2.1, h1.2.1.trans h2.2.1, h1.2.2.trans h2.2.2⟩
  · intro hab
    have h1 := (hchar a b).mp hab
    unfold PropertyCacheKey.hash
    rw [h1.1, h1.2.1, h1.2.2]

/-- Witness for C10 at concrete keys and concrete hash primitives. -/
theorem propertyCacheKey_eq_equivalence_hash_consistent_witness :
    PropertyCacheKey.eq ⟨NodeEdge.kNode, "dir", "prop"⟩
        ⟨NodeEdge.kNode, "dir", "prop"⟩ = true ∧
    PropertyCacheKey.hash ⟨fun _ => 0, String.length, fun a b => a + b⟩
        ⟨NodeEdge.kNode, "dir", "prop"⟩ =
      PropertyCacheKey.hash ⟨fun _ => 0, String.length, fun a b => a + b⟩
        ⟨NodeEdge.kNode, "dir", "prop"⟩ := by
  have h := propertyCacheKey_eq_equivalence_hash_consistent
    ⟨NodeEdge.kNode, "dir", "prop"⟩ ⟨NodeEdge.kNode, "dir", "prop"⟩
    ⟨NodeEdge.kNode, "dir", "prop"⟩
    ⟨fun _ => 0, String.length, fun a b => a + b⟩
  exact ⟨h.1, h.2.2.2.2 h.1⟩

/-- **C4 counterexample.** The claim says `largeAlloc` "either returns a
usable block or aborts the process" and "never returns a null/failed result
to its caller".  But `largeAlloc` is `return malloc(len);` with no check:
when `malloc` fails it returns the null pointer to the caller and does not
abort. -/
theorem largeAlloc_returns_null_counterexample :
    largeAlloc (fun _ => none) 100 = AllocOutcome.returns none ∧
    largeAlloc (fun _ => none) 100 ≠ AllocOutcome.aborted := by
  exact ⟨rfl, by decide⟩

/-- **C4 (amended).** `largeAlloc` forwards `malloc`'s result to its caller
unchanged and never aborts: on allocation failure the caller receives the
null pointer; only `largeInterleavedAlloc` checks for null and aborts. -/
theorem largeAlloc_forwards_malloc (malloc : Nat → Option Nat) (len : Nat) :
    largeAlloc malloc len = AllocOutcome.returns (malloc len) ∧
    largeAlloc malloc len ≠ AllocOutcome.aborted := by
  refine ⟨rfl, ?_⟩
  intro h
  exact AllocOutcome.noConfusion h

/-- **C5.** `largeInterleavedAlloc` stripes across exactly the node set
`{w / 4 : 0 ≤ w < activeThreads}` (the nodemask bit `b` is set iff some
active worker `w` has `w / 4 = b`); when NUMA support is unavailable it
falls back to a plain `malloc`; and in every configuration it aborts rather
than return a null pointer. -/
theorem largeInterleavedAlloc_nodemask_fallback_abort
    (cfg : NumaCfg) (f : Nat → (Nat → Bool) → Option Nat)
    (malloc : Nat → Option Nat) (t len : Nat) :
    (largeInterleavedAlloc cfg f malloc t len ≠ AllocOutcome.returns none) ∧
    (∀ b, nodemask t b = true ↔ ∃ w, w < t ∧ w / 4 = b) ∧
    (largeInterleavedAlloc NumaCfg.noNuma f malloc t len =
      match malloc len with
      | none => AllocOutcome.aborted
      | some p => AllocOutcome.returns (some p)) ∧
    (largeInterleavedAlloc NumaCfg.numa f malloc t len =
      match f len (nodemask t) with
      | none => AllocOutcome.aborted
      | some p => AllocOutcome.returns (some p)) := by
  refine ⟨?_, ?_, rfl, rfl⟩
  · unfold largeInterleavedAlloc
    cases cfg
    · dsimp only; cases f len (nodemask t) <;> simp
    · dsimp only; cases f len (nodemask t) <;> simp
    · dsimp only; cases malloc len <;> simp
  · intro b
    have key : ∀ (n : Nat) (init : Nat → Bool),
        ((List.range n).foldl (fun nm y => fun b' => nm b' || b' == y / 4)
            init) b = true ↔ (init b = true ∨ ∃ w, w < n ∧ w / 4 = b) := by
      intro n
      induction n with
      | zero => intro init; simp
      | succ m ih =>
        intro init
        rw [List.range_succ, List.foldl_append]
        simp only [List.foldl_cons, List.foldl_nil]
        rw [Bool.or_eq_true, ih init]
        constructor
        · rintro ((h | ⟨w, hw, hwb⟩) | h)
          · exact Or.inl h
          · exact Or.inr ⟨w, Nat.lt_succ_of_lt hw, hwb⟩
          · exact Or.inr ⟨m, Nat.lt_succ_self m, (beq_iff_eq.mp h).symm⟩
        · rintro (h | ⟨w, hw, hwb⟩)
          · exact Or.inl (Or.inl h)
          · rcases Nat.lt_succ_iff_lt_or_eq.mp hw with h' | rfl
            · exact Or.inl (Or.inr ⟨w, h', hwb⟩)
            · exact Or.inr (beq_iff_eq.mpr hwb.symm)
    unfold nodemask
    rw [key]
    simp

/-- **C3.** For every range of `N` items and thread count `T ≥ 1`, the
do-all block decomposition used by `partial_sum` (`blockSize = ceil(N/T)`,
`blockStart = min(b*blockSize, N)`, `blockEnd = min((b+1)*blockSize, N)`,
blocks `b = 0, …, T-1`) covers every index of `[0, N)` exactly once: each
`i < N` belongs to exactly one block, and consecutive blocks are contiguous
(`blockEnd b = blockStart (b+1)`, the last block clamped to `N`). -/
theorem doAll_blocks_cover_exactly_once (N T : Nat) (hT : 0 < T) :
    (∀ i, i < N → ∃! b, b < T ∧ blockStart N T b ≤ i ∧ i < blockEnd N T b) ∧
    (∀ b, blockEnd N T b = blockStart N T (b + 1)) ∧
    blockStart N T 0 = 0 ∧ blockEnd N T (T - 1) = N := by
  refine ⟨?_, fun b => rfl, by simp [blockStart], ?_⟩
  · intro i hi
    refine ⟨i / blockSize N T, (block_mem_iff hT hi _).mpr rfl, ?_⟩
    intro y hy
    exact (block_mem_iff hT hi y).mp hy
  · have h := mul_blockSize_ge (N := N) hT
    unfold blockEnd
    have hte : T - 1 + 1 = T := Nat.succ_pred_eq_of_pos hT
    rw [hte, Nat.min_eq_right h]

/-- Witness for C3 at `N = 10`, `T = 3`, `i = 5`. -/
theorem doAll_blocks_cover_exactly_once_witness :
    (0 : Nat) < 3 ∧
    ∃! b, b < 3 ∧ blockStart 10 3 b ≤ 5 ∧ 5 < blockEnd 10 3 b := by
  refine ⟨by decide, ?_⟩
  exact (doAll_blocks_cover_exactly_once 10 3 (by decide)).1 5 (by decide)

/-- **C1.** (for_each/do_all dispatch and Reducible modelled from the spec.)
For every stream of `update` events, with any associative `merge` and
two-sided `identity`, `reduce()` equals the fold of all updated values in
the order: worker 0's values (in their arrival order), then worker 1's, …
— i.e. the fold of all `v_i` in an order determined solely by which values
each worker contributed, with the final fold over worker slots performed
left-to-right in WorkerId order, independent of the interleaving (arrival
time) of updates across workers. -/
theorem reducible_reduce_is_workerid_fold {T : Type}
    (merge : T → T → T) (identity : T) (n : Nat) (events : List (Nat × T))
    (hassoc : ∀ a b c, merge (merge a b) c = merge a (merge b c))
    (_hidl : ∀ a, merge identity a = a)
    (hidr : ∀ a, merge a identity = a) :
    reduceSlots merge identity (runUpdates merge identity n events) =
      ((List.range n).map (workerValues events)).flatten.foldl merge
        identity := by
  rw [runUpdates_eq_map]
  unfold reduceSlots
  have hmm : (List.range n).map
        (fun w => (workerValues events w).foldl merge identity) =
      ((List.range n).map (workerValues events)).map
        (fun l => l.foldl merge identity) := by
    rw [List.map_map]
    rfl
  rw [hmm, foldl_map_merge merge identity hassoc hidr]

/-- Witness for C1: a non-commutative merge (list concatenation) with two
workers, where worker 1's value arrives before worker 0's; the reduction
nevertheless yields worker 0's value first (WorkerId order, not arrival
order). -/
theorem reducible_reduce_is_workerid_fold_witness :
    reduceSlots (fun a b : List Nat => a ++ b) []
        (runUpdates (fun a b : List Nat => a ++ b) [] 2
          [(1, [20]), (0, [10])]) = [10, 20] := by
  have h := reducible_reduce_is_workerid_fold
    (fun a b : List Nat => a ++ b) [] 2 [(1, [20]), (0, [10])]
    (fun a b c => List.append_assoc a b c)
    (fun a => List.nil_append a)
    (fun a => List.append_nil a)
  exact h.trans (by decide)

/-- **C7.** (do_all dispatch and GAccumulator modelled from the spec.)
For every distribution of the range into per-worker blocks,
`ParallelSTL::count_if` returns exactly the number of elements satisfying
the predicate; in particular a `GAccumulator` to which 1 is added once per
iteration (predicate constantly true) yields `reduce()` exactly equal to
the iteration count, for every block decomposition (hence every active
thread count). -/
theorem count_if_exact {α : Type} (pred : α → Bool) (items : List α)
    (blocks : List (List α)) (hpart : blocks.flatten = items) :
    count_if pred blocks = (items.filter pred).length ∧
    count_if (fun _ => true) blocks = items.length := by
  subst hpart
  refine ⟨count_if_flatten pred blocks, ?_⟩
  rw [count_if_flatten (fun _ => true) blocks, List.filter_true]

/-- Witness for C7: range `[0, 1, 2, 3]` split over two workers. -/
theorem count_if_exact_witness :
    ([[0, 1], [2, 3]] : List (List Nat)).flatten = [0, 1, 2, 3] ∧
    count_if (fun v => v % 2 == 0) [[0, 1], [2, 3]] = 2 ∧
    count_if (fun _ => true) ([[0, 1], [2, 3]] : List (List Nat)) = 4 := by
  have h := count_if_exact (fun v => v % 2 == 0) [0, 1, 2, 3]
    [[0, 1], [2, 3]] (by decide)
  refine ⟨by decide, ?_, ?_⟩
  · exact h.1.trans (by decide)
  · exact h.2.trans (by decide)

/-- **C2.** (for_each dispatch modelled from the spec; the result scan is
ParallelSTL.h lines 83-87.)  `find_if` terminates and returns: (i) if any
worker recorded a satisfying element in its per-thread slot, the result is
the recorded element of the lowest-WorkerId non-empty slot; (ii) if no
element of the range satisfies the predicate, every worker exhausts its
items with an empty slot and the result is `last`; (iii) whenever some
distributed item satisfies the predicate, the returned element satisfies
it (some satisfying element, not necessarily the leftmost in range
order). -/
theorem find_if_lowest_slot_or_last {α : Type} (pred : α → Bool)
    (blocks : List (List α)) (last : α) (slots : List (Option α))
    (i : Nat) (v : α) :
    (i < slots.length → slots.getD i none = some v →
      (∀ j, j < i → slots.getD j none = none) →
      find_if_scan slots last = v) ∧
    ((∀ bl ∈ blocks, ∀ x ∈ bl, pred x = false) →
      find_if pred blocks last = last) ∧
    ((∃ bl ∈ blocks, ∃ x ∈ bl, pred x = true) →
      pred (find_if pred blocks last) = true) := by
  refine ⟨fun hi hv hnone => find_if_scan_lowest last v slots i hi hv hnone,
    ?_, ?_⟩
  · intro hall
    unfold find_if
    apply find_if_scan_all_none
    intro s hs
    rcases List.mem_map.mp hs with ⟨bl, hbl, rfl⟩
    unfold find_if_worker
    rw [List.find?_eq_none]
    intro x hx
    rw [hall bl hbl x hx]
    simp
  · rintro ⟨bl, hbl, x, hx, hpx⟩
    unfold find_if
    apply find_if_scan_sat
    · intro s hs y hy
      rcases List.mem_map.mp hs with ⟨bl', _, rfl⟩
      exact List.find?_some hy
    · refine ⟨find_if_worker pred bl, List.mem_map_of_mem _ hbl, ?_⟩
      unfold find_if_worker
      intro hnone
      have := List.find?_eq_none.mp hnone x hx
      exact this hpx

/-- Witness for C2: slots `[none, some 6, some 9]` scan to worker 1's
element; a range with no satisfying element returns `last = 7`; a range
with satisfying elements returns a satisfying element. -/
theorem find_if_lowest_slot_or_last_witness :
    find_if_scan [none, some 6, some 9] 0 = 6 ∧
    find_if (fun v => v % 3 == 0) [[1, 2], [4, 5]] 7 = 7 ∧
    (find_if (fun v => v % 3 == 0) [[1, 2], [4, 6], [9]] 0) % 3 == 0 := by
  refine ⟨?_, ?_, ?_⟩
  · exact (find_if_lowest_slot_or_last (fun v : Nat => v % 3 == 0) [] 0
      [none, some 6, some 9] 1 6).1 (by decide) (by decide)
      (fun j hj => by
        have hj0 : j = 0 := by omega
        subst hj0
        rfl)
  · exact (find_if_lowest_slot_or_last (fun v => v % 3 == 0) [[1, 2], [4, 5]]
      7 [] 0 0).2.1 (by decide)
  · exact (find_if_lowest_slot_or_last (fun v => v % 3 == 0)
      [[1, 2], [4, 6], [9]] 0 [] 0 0).2.2 (by decide)

/-- **C6.** In `partition_helper_state`, each of `takeLow`, `takeHigh`,
`update` reads and writes the shared fields only inside the mutex-guarded
critical section (modelled by making each a single atomic transition); for
every interleaving of such operations starting from a range with
`first ≤ last`, every reachable state keeps `first ≤ last` (within the
original bounds), and the blocks handed out by distinct `takeLow`/`takeHigh`
calls are pairwise disjoint subranges of the original range, so each
element is given to at most one worker. -/
theorem partition_state_invariant_disjoint (f0 l0 : Nat) (ops : List POp)
    (h0 : f0 ≤ l0) :
    (f0 ≤ (runOps f0 l0 ops).1.first ∧
      (runOps f0 l0 ops).1.first ≤ (runOps f0 l0 ops).1.last ∧
      (runOps f0 l0 ops).1.last ≤ l0) ∧
    (runOps f0 l0 ops).2.Pairwise PDisj ∧
    (∀ b ∈ (runOps f0 l0 ops).2, f0 ≤ b.1 ∧ b.2 ≤ l0) := by
  have hinit : PHInv f0 l0 (PHState.mk f0 l0 l0 f0) [] := by
    refine ⟨Nat.le_refl _, h0, Nat.le_refl _, List.Pairwise.nil, ?_⟩
    intro b hb
    simp at hb
  have h := PHInv_fold f0 l0 ops (PHState.mk f0 l0 l0 f0) [] hinit
  obtain ⟨h1, h2, h3, h4, h5⟩ := h
  exact ⟨⟨h1, h2, h3⟩, h4, fun b hb => ⟨(h5 b hb).1, (h5 b hb).2.1⟩⟩

/-- Witness for C6: range `[0, 3000)` with a takeLow, a takeHigh, an update
of two leftover blocks, and another takeLow. -/
theorem partition_state_invariant_disjoint_witness :
    (0 : Nat) ≤ 3000 ∧
    ((0 ≤ (runOps 0 3000 [POp.takeLowOp, POp.takeHighOp,
        POp.updateOp (5, 7) (2000, 2010), POp.takeLowOp]).1.first ∧
      (runOps 0 3000 [POp.takeLowOp, POp.takeHighOp,
        POp.updateOp (5, 7) (2000, 2010), POp.takeLowOp]).1.first ≤
        (runOps 0 3000 [POp.takeLowOp, POp.takeHighOp,
          POp.updateOp (5, 7) (2000, 2010), POp.takeLowOp]).1.last ∧
      (runOps 0 3000 [POp.takeLowOp, POp.takeHighOp,
        POp.updateOp (5, 7) (2000, 2010), POp.takeLowOp]).1.last ≤ 3000) ∧
    (runOps 0 3000 [POp.takeLowOp, POp.takeHighOp,
      POp.updateOp (5, 7) (2000, 2010), POp.takeLowOp]).2.Pairwise PDisj ∧
    (∀ b ∈ (runOps 0 3000 [POp.takeLowOp, POp.takeHighOp,
        POp.updateOp (5, 7) (2000, 2010), POp.takeLowOp]).2,
      0 ≤ b.1 ∧ b.2 ≤ 3000)) := by
  exact ⟨by decide, partition_state_invariant_disjoint 0 3000
    [POp.takeLowOp, POp.takeHighOp, POp.updateOp (5, 7) (2000, 2010),
      POp.takeLowOp] (by decide)⟩

/-- **C9.** For every input, `ParallelSTL::partial_sum` produces exactly
the same sequence of prefix sums as the serial `std::partial_sum` and
returns `d_first + distance(first, last)` (the output has exactly the input
length), on both paths: the serial path for ranges shorter than 1024 and
the parallel path (per-block scans, exclusive scan of block totals, then
per-block offset addition) for ranges of 1024 elements or more — for every
thread count `T ≥ 1` and every value `g` of the racy read performed by
empty trailing blocks. -/
theorem parScan_matches_serial (g : Nat → Int) (T : Nat) (l : List Int)
    (hT : 0 < T) :
    parScan g T l = inclusiveScan l ∧
    (parScan g T l).length = l.length := by
  have hmain : parScan g T l = inclusiveScan l := by
    unfold parScan
    split
    · unfold phase2
      have h := (phase2_upto g l T hT T (le_refl T)).1
      have hsT : blockStart l.length T T = l.length := by
        unfold blockStart
        exact Nat.min_eq_right (mul_blockSize_ge hT)
      rw [h, hsT, List.take_length]
      rfl
    · rfl
  refine ⟨hmain, ?_⟩
  rw [hmain]
  unfold inclusiveScan
  exact inclusiveScanAux_length l 0

set_option maxRecDepth 100000 in
/-- **C8 (failing input).** On one active thread and the 1025-element Bool
range `[false, true, true, …, true]` with the identity predicate
(`distance > 1024`, so the parallel path runs), the single worker's
`dual_partition` passes leave the data perfectly partitioned
(1024 `true`s then the `false`) and both its blocks empty, so no leftover
is ever recorded: `rfirst`/`rlast` keep their constructor sentinels
`rfirst = last, rlast = first`.  The "perfect" test at line 239 checks the
*inverted* condition `rfirst == first && rlast == last`, so instead of
returning, the code falls through to
`std::partition(s.rfirst, s.rlast, pred)` at line 243 with a *reversed*
iterator pair (`rfirst = 1025 > 0 = rlast`) — a precondition violation
(undefined behavior), modelled as `none`.  The second conjunct exhibits
the sentinel state; the third shows the data was already partitioned when
the broken cleanup ran. -/
theorem partition_perfect_case_calls_reversed_cleanup :
    katanaPartitionT1 (fun i => i != 0) 1025 = none ∧
    (workerLoop 1027 (fun i => i != 0) (PHState.mk 0 1025 1025 0)
      (0, 0) (0, 0)).2 = PHState.mk 1024 1024 1025 0 ∧
    countTrue (workerLoop 1027 (fun i => i != 0) (PHState.mk 0 1025 1025 0)
      (0, 0) (0, 0)).1 1025 0 = 1024 := by
  refine ⟨by decide, by decide, by decide⟩

/-- Witness for C9 with two threads and a 1200-element input (parallel
path). -/
theorem parScan_matches_serial_witness :
    (0 : Nat) < 2 ∧
    (parScan (fun _ => 0) 2 ((List.range 1200).map Int.ofNat) =
        inclusiveScan ((List.range 1200).map Int.ofNat) ∧
      (parScan (fun _ => 0) 2 ((List.range 1200).map Int.ofNat)).length =
        ((List.range 1200).map Int.ofNat).length) :=
  ⟨by decide, parScan_matches_serial (fun _ => 0) 2
    ((List.range 1200).map Int.ofNat) (by decide)⟩

end Katana
